import Mathlib

/-!
Verification of the core of `dev-recap` (a Rust tool that scans directory
trees for git repositories, walks their commit history, and aggregates
per-repository statistics) against its natural-language specification.

The Rust sources are shallowly embedded: pure Rust functions become Lean
functions over `List Char` / `String` / `Int` / `Nat`; `u32` arithmetic is
modelled as `Nat` with explicit `% 2^32` where the Rust code performs `u32`
addition or an `as u32` cast; fallible operations return `Option` / `Except`.
Filesystem and libgit2 state is made explicit: a directory tree is an
inductive `Dir` value, and a repository's commit graph is a list of
`GitCommit` values carrying the data the walker reads from libgit2.
-/

namespace DevRecap

/-! ## Character-list string primitives

These model the Rust `str` operations used by the sources (`contains`,
`starts_with`, prefix stripping, digit runs). Rust `str::contains` on a
string pattern is substring search; the empty pattern matches everywhere. -/

/-- `isPrefixCL p s` is true iff the char list `p` is a prefix of `s`
(models matching a literal at the current position). -/
def isPrefixCL : List Char → List Char → Bool
  | [], _ => true
  | _ :: _, [] => false
  | p :: ps, c :: cs => p == c && isPrefixCL ps cs

/-- `containsSubCL s pat` is true iff `pat` occurs as a contiguous substring
of `s` (models Rust `str::contains` with a string pattern; the empty pattern
is contained in every string). -/
def containsSubCL (s pat : List Char) : Bool :=
  isPrefixCL pat s ||
    match s with
    | [] => false
    | _ :: cs => containsSubCL cs pat

/-- Rust `str::contains` on `String`s. -/
def stringContains (s pat : String) : Bool :=
  containsSubCL s.data pat.data

/-- `dropPrefixCL p s = some rest` iff `s = p ++ rest`
(models consuming a literal during pattern matching). -/
def dropPrefixCL : List Char → List Char → Option (List Char)
  | [], s => some s
  | _ :: _, [] => none
  | p :: ps, c :: cs => if p == c then dropPrefixCL ps cs else none

/-! ## Directory Scanner (`src/git/scanner.rs`)

The filesystem subtree handed to `Scanner::scan` is modelled as an inductive
tree. Only directories are modelled (the Rust loop skips every non-directory
entry); `isRepo` abstracts `Scanner::is_git_repository` (a `.git` marker
exists and the repository opens), and `readable` abstracts whether
`fs::read_dir` succeeds on the directory. A path is the list of directory
names from the scan root (the root itself is the empty list), so a path's
depth in the Rust code equals its length here. -/

/-- A directory in the scanned tree: name, whether it is a valid git
repository root, whether its entries can be read, and its subdirectories. -/
inductive Dir : Type where
  | node (name : String) (isRepo : Bool) (readable : Bool) (children : List Dir)

def Dir.name : Dir → String
  | .node n _ _ _ => n

def Dir.isRepo : Dir → Bool
  | .node _ r _ _ => r

def Dir.readable : Dir → Bool
  | .node _ _ w _ => w

def Dir.children : Dir → List Dir
  | .node _ _ _ cs => cs

/-- `Scanner::should_exclude`: a directory name is excluded iff it equals, or
contains as a substring, some exclusion pattern. -/
def shouldExclude (patterns : List String) (name : String) : Bool :=
  patterns.any fun pattern => name == pattern || stringContains name pattern

/-- The hidden-directory skip in `Scanner::scan_recursive`: names starting
with `.` are skipped during descent, except `.git`. -/
def hiddenSkip (name : String) : Bool :=
  (match name.data with
   | c :: _ => c == '.'
   | [] => false) && !(name == ".git")

/-- The depth-limit test at the top of `Scanner::scan_recursive`:
`if depth >= max_depth { return Ok(()) }` when a maximum is configured. -/
def atMaxDepth (maxDepth : Option Nat) (depth : Nat) : Bool :=
  match maxDepth with
  | some m => decide (m ≤ depth)
  | none => false

mutual

/-- `Scanner::scan_recursive`. Returns, in discovery order, the paths
(relative to the scan root) pushed onto `repos`. Mirrors the Rust control
flow: depth check first (returning without any repository test), then the
repository test at the current directory, then — if the directory is
readable — the loop over its subdirectory entries. -/
def scanRec (ex : List String) (md : Option Nat) (path : List String)
    (depth : Nat) : Dir → List (List String)
  | .node _ isRepo readable children =>
    if atMaxDepth md depth then []
    else
      let here := if isRepo then [path] else []
      if readable then here ++ scanRecList ex md path depth children
      else here

/-- The `for entry in entries` loop of `Scanner::scan_recursive`: each
subdirectory is skipped when excluded, then when hidden, and otherwise
scanned recursively at `depth + 1`. -/
def scanRecList (ex : List String) (md : Option Nat) (path : List String)
    (depth : Nat) : List Dir → List (List String)
  | [] => []
  | c :: cs =>
    (if shouldExclude ex c.name then []
     else if hiddenSkip c.name then []
     else scanRec ex md (path ++ [c.name]) (depth + 1) c)
      ++ scanRecList ex md path depth cs

end

/-- `Scanner::scan`: start the recursion at the root with depth 0. -/
def scan (ex : List String) (md : Option Nat) (root : Dir) :
    List (List String) :=
  scanRec ex md [] 0 root

/-! ## Reference extraction (`src/git/github.rs`, `extract_pr_numbers`)

Each of the four regular expressions used by `extract_pr_numbers` has the
shape `LITERAL(\d+)`: a fixed literal followed by one capture group of one
or more digits. `Regex::captures_iter` yields the successive non-overlapping
matches, scanning left to right, with the digit run taken greedily (maximal)
at each match; `scanPat` implements exactly those semantics for this shape
of pattern. -/

/-- The numeric value of a digit run (the capture group's text read as a
number; Rust then parses it as `u32`, which is modelled at the use site by
keeping only values below `2 ^ 32`). -/
def digitsVal (ds : List Char) : Nat :=
  ds.foldl (fun n c => n * 10 + (c.toNat - '0'.toNat)) 0

/-- Successive non-overlapping matches of the pattern `LITERAL(\d+)`, left
to right, each digit run taken maximally; returns the numeric values of the
capture groups in match order. The fuel argument only bounds the recursion
(every step consumes at least one character, so any fuel of at least the
remaining length is enough and `scanPat` passes the initial length). -/
def scanPatAux (lit : List Char) : Nat → List Char → List Nat
  | 0, _ => []
  | _, [] => []
  | fuel + 1, c :: rest =>
    match dropPrefixCL lit (c :: rest) with
    | some after =>
      match after.takeWhile Char.isDigit with
      | [] => scanPatAux lit fuel rest
      | d :: ds =>
        digitsVal (d :: ds) :: scanPatAux lit fuel (after.dropWhile Char.isDigit)
    | none => scanPatAux lit fuel rest

/-- Matches of `LITERAL(\d+)` over a whole character list
(`Regex::captures_iter` semantics for the four reference patterns). -/
def scanPat (lit s : List Char) : List Nat :=
  scanPatAux lit s.length s

/-- The four patterns of `extract_pr_numbers`, in source order:
`#(\d+)`, `GH-(\d+)`, `PR#(\d+)`, `pull request #(\d+)`. -/
def prPatterns : List (List Char) :=
  [['#'], ['G', 'H', '-'], ['P', 'R', '#'], "pull request #".data]

/-- The body of the capture loop in `extract_pr_numbers`: a capture is kept
when it parses as `u32` (no overflow) and is not already collected
(`if !pr_numbers.contains(&num) { pr_numbers.push(num) }`). -/
def collectNum (acc : List Nat) (n : Nat) : List Nat :=
  if n < 2 ^ 32 && !acc.contains n then acc ++ [n] else acc

/-- `extract_pr_numbers`: pool the matches of the four patterns over the raw
message through the collecting loop, then sort ascending
(`pr_numbers.sort()`). -/
def extract_pr_numbers (message : String) : List Nat :=
  let pooled := prPatterns.foldl
    (fun acc lit => (scanPat lit message.data).foldl collectNum acc) []
  pooled.insertionSort (· ≤ ·)

/-! ## GitHub URL parsing (`src/git/github.rs`, `parse_github_url`)

All three regular expressions have the shape
`LITERAL([^/]+)/([^/.]+)`; `Regex::captures` finds the leftmost match.
Because `[^/]+` cannot cross a `/`, the first group is forced to be the
(nonempty) run of non-`/` characters following the literal, the `/` after it
is consumed, and the greedy second group is the maximal nonempty run of
characters that are neither `/` nor `.`; if any of this fails, no match
starts at this literal occurrence and the search continues to the right. -/

/-- GitHub repository identifier (`GitHubRepo` in `src/git/mod.rs`). -/
structure GitHubRepo where
  owner : String
  repo : String
deriving DecidableEq

/-- Match `([^/]+)/([^/.]+)` at the start of `s`, returning the two capture
groups on success. -/
def urlGroups (s : List Char) : Option (List Char × List Char) :=
  let r1 := s.takeWhile (· != '/')
  if r1.isEmpty then none
  else
    match s.dropWhile (· != '/') with
    | '/' :: rest =>
      let r2 := rest.takeWhile fun c => c != '/' && c != '.'
      if r2.isEmpty then none else some (r1, r2)
    | _ => none

/-- Leftmost match of `LITERAL([^/]+)/([^/.]+)` anywhere in `s`
(`Regex::captures` semantics for the three URL patterns). -/
def findPattern (lit : List Char) : List Char → Option (List Char × List Char)
  | [] => none
  | c :: cs =>
    match dropPrefixCL lit (c :: cs) with
    | some after =>
      match urlGroups after with
      | some g => some g
      | none => findPattern lit cs
    | none => findPattern lit cs

/-- Rust `str::trim`: remove leading and trailing whitespace. -/
def rustTrim (s : String) : List Char :=
  ((s.data.dropWhile Char.isWhitespace).reverse.dropWhile Char.isWhitespace).reverse

/-- Rust `str::trim_end_matches(pat)`: repeatedly remove the suffix `pat`.
The fuel argument only bounds the recursion (each removal of a nonempty
suffix shortens the list, so fuel of at least the initial length suffices
and `trimEndMatches` passes the initial length). -/
def trimEndMatchesAux (pat : List Char) : Nat → List Char → List Char
  | 0, s => s
  | fuel + 1, s =>
    if pat ≠ [] ∧ pat.isSuffixOf s then
      trimEndMatchesAux pat fuel (s.take (s.length - pat.length))
    else s

/-- Rust `str::trim_end_matches(pat)` on a char list. -/
def trimEndMatches (pat s : List Char) : List Char :=
  trimEndMatchesAux pat s.length s

/-- `parse_github_url`: trim the input, then try the HTTPS, SSH and `git://`
patterns in order; on the first match return owner and repository with any
trailing `.git` stripped from the repository group; otherwise `None`. -/
def parse_github_url (url : String) : Option GitHubRepo :=
  let u := rustTrim url
  match findPattern "https://github.com/".data u with
  | some (o, r) =>
    some ⟨o.asString, (trimEndMatches ".git".data r).asString⟩
  | none =>
    match findPattern "git@github.com:".data u with
    | some (o, r) =>
      some ⟨o.asString, (trimEndMatches ".git".data r).asString⟩
    | none =>
      match findPattern "git://github.com/".data u with
      | some (o, r) =>
        some ⟨o.asString, (trimEndMatches ".git".data r).asString⟩
      | none => none

/-! ## Commit walker (`src/git/parser.rs`)

The data the walker reads from libgit2 is reified in a `GitCommit` value:
the commit's oid string, its `time().seconds()`, author name and email, raw
message, its tree, and the trees of its parents in order. A tree is a finite
map from file path to file content (a list of lines). The revwalk result
(`push_head` + `Sort::TIME`) is the input list `walk`, in the order the
iterator yields it. -/

/-- A git tree: file paths mapped to file content (lines). -/
abbrev Tree : Type := List (String × List String)

/-- Content of a path in a tree, if present. -/
def treeLookup (t : Tree) (p : String) : Option (List String) :=
  match t.find? (fun e => e.1 == p) with
  | some e => some e.2
  | none => none

/-- Size of the multiset intersection of two line lists (the number of lines
common to both versions, with multiplicity). -/
def multisetInterCard : List String → List String → Nat
  | [], _ => 0
  | x :: xs, b =>
    if x ∈ b then 1 + multisetInterCard xs (b.erase x)
    else multisetInterCard xs b

/-- Line-granularity diff of one file: (insertions, deletions). A file absent
on the old side contributes all its lines as insertions; absent on the new
side, all its lines as deletions; present on both, lines not common to the
two versions. -/
def fileDiff (old new : Option (List String)) : Nat × Nat :=
  match old, new with
  | none, none => (0, 0)
  | none, some l => (l.length, 0)
  | some l, none => (0, l.length)
  | some a, some b =>
    let c := multisetInterCard b a
    (b.length - c, a.length - c)

/-- Models the external git library's `diff_tree_to_tree` followed by
`diff.stats()` and the `diff.foreach` file-name collection in
`Parser::get_diff_stats`: `none` as old side is the empty tree. Returns the
changed-file paths (new side first, then deleted files), total insertions
and total deletions. -/
def diffTreeToTree (old : Option Tree) (new : Tree) :
    List String × Nat × Nat :=
  let o : Tree := old.getD []
  let newSide := new.filter fun e => treeLookup o e.1 ≠ some e.2
  let deleted := o.filter fun e => treeLookup new e.1 = none
  let files := newSide.map (·.1) ++ deleted.map (·.1)
  let ins := (newSide.map fun e => (fileDiff (treeLookup o e.1) (some e.2)).1).sum
  let del := (newSide.map fun e => (fileDiff (treeLookup o e.1) (some e.2)).2).sum
    + (deleted.map fun e => e.2.length).sum
  (files, ins, del)

/-- The commit data read from libgit2 by `Parser::parse_commits`. `time` is
`commit.time().seconds()` (Unix seconds, interpreted as UTC); `parentTrees`
lists the parents' trees in parent order. -/
structure GitCommit where
  hash : String
  time : Int
  authorName : String
  authorEmail : String
  message : String
  tree : Tree
  parentTrees : List Tree

/-- `Parser::get_diff_stats`: a commit with at least one parent is diffed
from its first parent's tree (`commit.parent(0)`); a parentless commit is
diffed from the empty tree (`diff_tree_to_tree(None, tree)`). Insertion and
deletion totals go through the `as u32` casts of the source. -/
def get_diff_stats (g : GitCommit) : List String × Nat × Nat :=
  let r :=
    match g.parentTrees with
    | [] => diffTreeToTree none g.tree
    | p :: _ => diffTreeToTree (some p) g.tree
  (r.1, r.2.1 % 2 ^ 32, r.2.2 % 2 ^ 32)

/-- `Timespan` (`src/git/mod.rs`): inclusive start and end instants, as Unix
seconds (comparison of `DateTime<Utc>` values is chronological order). -/
structure Timespan where
  start : Int
  end_ : Int
deriving DecidableEq

/-- `Timespan::contains`: `date >= &self.start && date <= &self.end`. -/
def Timespan.contains (ts : Timespan) (date : Int) : Bool :=
  ts.start ≤ date && date ≤ ts.end_

/-- `Author` (`src/git/mod.rs`). -/
structure Author where
  name : String
  email : String
deriving DecidableEq

/-- Split on `'\n'`; total parts, so always nonempty. -/
def splitOnNl : List Char → List (List Char)
  | [] => [[]]
  | c :: cs =>
    if c == '\n' then [] :: splitOnNl cs
    else
      match splitOnNl cs with
      | [] => [[c]]
      | l :: ls => (c :: l) :: ls

/-- Drop a single trailing `'\r'` (Rust `str::lines` strips it). -/
def stripCr (l : List Char) : List Char :=
  if l.getLast? = some '\r' then l.dropLast else l

/-- Rust `str::lines`: split on `'\n'` as a terminator (no empty final line
for a trailing newline, empty input gives no lines), stripping one trailing
`'\r'` per line. -/
def rustLines (s : String) : List (List Char) :=
  let ps := splitOnNl s.data
  let ps := if ps.getLast? = some [] then ps.dropLast else ps
  ps.map stripCr

/-- Rust `str::trim` on a char list. -/
def rustTrimCL (l : List Char) : List Char :=
  ((l.dropWhile Char.isWhitespace).reverse.dropWhile Char.isWhitespace).reverse

/-- `Parser::split_message`: first line (trimmed) is the summary; the
remaining lines, after skipping leading blank lines, joined with `"\n"`,
form the body (no body if nothing remains). -/
def split_message (message : String) : String × Option String :=
  let lines := rustLines message
  let summary := (rustTrimCL (lines.headD [])).asString
  let body := (lines.drop 1).dropWhile fun l => (rustTrimCL l).isEmpty
  if body.isEmpty then (summary, none)
  else (summary, some (String.intercalate "\n" (body.map (·.asString))))

/-- `Commit` (`src/git/mod.rs`): the record built by the walker. -/
structure Commit where
  hash : String
  short_hash : String
  author : Author
  timestamp : Int
  message : String
  summary : String
  body : Option String
  files_changed : List String
  insertions : Nat
  deletions : Nat
  pr_numbers : List Nat
deriving DecidableEq

/-- ASCII lowercasing of a char list (models Rust `str::to_lowercase` on the
ASCII strings relevant here). -/
def toLowerCL (l : List Char) : List Char :=
  l.map Char.toLower

/-- The author filter test of `Parser::parse_commits`:
`author.email.to_lowercase().contains(&filter_email.to_lowercase())`. -/
def emailMatches (filterEmail email : String) : Bool :=
  containsSubCL (toLowerCL email.data) (toLowerCL filterEmail.data)

/-- The two `continue` filters of the walker loop: timespan first, then the
author-email substring test when a filter is supplied. -/
def commitIncluded (author_email : Option String) (ts : Timespan)
    (g : GitCommit) : Bool :=
  ts.contains g.time &&
    (match author_email with
     | some f => emailMatches f g.authorEmail
     | none => true)

/-- Building one `Commit` record from the walker's per-commit data:
`format!("{:.7}", hash)` is the 7-char prefix; summary/body come from
`split_message`; files/insertions/deletions from `get_diff_stats`; PR
numbers from `extract_pr_numbers` on the raw message. -/
def mkCommit (g : GitCommit) : Commit :=
  let d := get_diff_stats g
  let sb := split_message g.message
  { hash := g.hash
    short_hash := (g.hash.data.take 7).asString
    author := ⟨g.authorName, g.authorEmail⟩
    timestamp := g.time
    message := g.message
    summary := sb.1
    body := sb.2
    files_changed := d.1
    insertions := d.2.1
    deletions := d.2.2
    pr_numbers := extract_pr_numbers g.message }

/-- `Parser::parse_commits`, given the revwalk's commit sequence `walk`:
keep the commits passing both filters, in walk order, each converted to a
`Commit` record. -/
def parse_commits (author_email : Option String) (ts : Timespan)
    (walk : List GitCommit) : List Commit :=
  (walk.filter (commitIncluded author_email ts)).map mkCommit

/-! ## Statistics aggregation (`src/git/mod.rs`, `RepoStats`)

`u32` counters are modelled as `Nat` with wrapping addition
(`% 2 ^ 32`, release-build Rust semantics); the `HashMap<String, u32>`
frequency table is modelled as its lookup function with default 0
(`entry(date).or_insert(0)`). -/

/-- Wrapping `u32` addition. -/
def u32add (a b : Nat) : Nat :=
  (a + b) % 2 ^ 32

/-- `RepoStats` (`src/git/mod.rs`). -/
structure RepoStats where
  total_commits : Nat
  total_files_changed : Nat
  total_insertions : Nat
  total_deletions : Nat
  pr_count : Nat
  commit_frequency : String → Nat

/-- `RepoStats::default()`: zero counters, empty frequency map. -/
def RepoStats.default : RepoStats :=
  ⟨0, 0, 0, 0, 0, fun _ => 0⟩

/-- Days since the Unix epoch of a timestamp (chrono's UTC calendar uses
floor division into days). -/
def epochDays (t : Int) : Int :=
  Int.fdiv t 86400

/-- Proleptic-Gregorian (year, month, day) of a day count since the epoch
(the standard civil-from-days computation chrono's calendar implements). -/
def civilFromDays (z0 : Int) : Int × Nat × Nat :=
  let z := z0 + 719468
  let era : Int := Int.fdiv z 146097
  let doe : Nat := (z - era * 146097).toNat
  let yoe : Nat := (doe - doe / 1460 + doe / 36524 - doe / 146096) / 365
  let y : Int := (yoe : Int) + era * 400
  let doy : Nat := doe - (365 * yoe + yoe / 4 - yoe / 100)
  let mp : Nat := (5 * doy + 2) / 153
  let d : Nat := doy - (153 * mp + 2) / 5 + 1
  let m : Nat := if mp < 10 then mp + 3 else mp - 9
  (if m ≤ 2 then y + 1 else y, m, d)

/-- Zero-pad a number to a minimum width. -/
def padNum (width : Nat) (n : Nat) : String :=
  let s := toString n
  (List.replicate (width - s.length) '0').asString ++ s

/-- chrono `%Y`: the proleptic Gregorian year, zero-padded to 4 digits, with
a sign for negative years and a `+` beyond year 9999. -/
def yearStr (y : Int) : String :=
  if y < 0 then "-" ++ padNum 4 (-y).toNat
  else if y > 9999 then "+" ++ toString y.toNat
  else padNum 4 y.toNat

/-- `timestamp.format("%Y-%m-%d").to_string()` for a UTC timestamp. -/
def dateStr (t : Int) : String :=
  let c := civilFromDays (epochDays t)
  yearStr c.1 ++ "-" ++ padNum 2 c.2.1 ++ "-" ++ padNum 2 c.2.2

/-- One iteration of the `for commit in commits` loop of
`RepoStats::from_commits`, threading the statistics and the `HashSet` of PR
numbers (as a `Finset`). -/
def fromCommitsStep (st : RepoStats × Finset Nat) (c : Commit) :
    RepoStats × Finset Nat :=
  let stats := st.1
  ({ stats with
      total_commits := u32add stats.total_commits 1
      total_files_changed :=
        u32add stats.total_files_changed (c.files_changed.length % 2 ^ 32)
      total_insertions := u32add stats.total_insertions c.insertions
      total_deletions := u32add stats.total_deletions c.deletions
      commit_frequency := fun d =>
        if d = dateStr c.timestamp then u32add (stats.commit_frequency d) 1
        else stats.commit_frequency d },
    st.2 ∪ c.pr_numbers.toFinset)

/-- `RepoStats::from_commits`: fold the loop body over the commit list
starting from `default` and an empty PR set, then store the PR set's size
(`pr_set.len() as u32`). -/
def RepoStats.from_commits (commits : List Commit) : RepoStats :=
  let r := commits.foldl fromCommitsStep (RepoStats.default, ∅)
  { r.1 with pr_count := r.2.card % 2 ^ 32 }

/-! ## Orchestrator (`src/orchestrator.rs`) and errors (`src/error.rs`)

Only the `DevRecapError` variants reachable from
`Orchestrator::analyze_repository` are modelled (the others wrap external
library error types irrelevant to the claims). Opening the repository on
disk is reified as an `Option (List GitCommit)` paired with the optional
remote URL: `none` means `Git2Repository::open` fails, which
`parse_commits` surfaces as a `Git` error via the `#[from]` conversion. -/

inductive DevRecapError : Type where
  | Git (msg : String)
  | NoCommitsFound (author : String)
  | RepositoryNotFound (path : String)
  | InvalidTimespan (msg : String)
  | Other (msg : String)
deriving DecidableEq

/-- `Repository` (`src/git/mod.rs`): the per-repository record assembled by
the orchestrator. The path is the segment list from the scan root. -/
structure Repository where
  path : List String
  name : String
  remote_url : Option String
  github_info : Option GitHubRepo
  commits : List Commit
  stats : RepoStats

/-- `Scanner::get_repo_name`: the final path segment, or `"unknown"`. -/
def get_repo_name (path : List String) : String :=
  path.getLast?.getD "unknown"

/-- `Orchestrator::analyze_repository`: parse the commits (propagating the
open failure), report `NoCommitsFound` — with the filter author or `"any"` —
when the filtered list is empty, otherwise assemble the record with
statistics, name, remote URL and best-effort GitHub info. -/
def analyze_repository (onDisk : Option (List GitCommit))
    (remoteUrl : Option String) (repoPath : List String)
    (author_email : Option String) (ts : Timespan) :
    Except DevRecapError Repository :=
  match onDisk with
  | none => .error (.Git "failed to open repository")
  | some walk =>
    let commits := parse_commits author_email ts walk
    if commits.isEmpty then
      .error (.NoCommitsFound (author_email.getD "any"))
    else
      .ok { path := repoPath
            name := get_repo_name repoPath
            remote_url := remoteUrl
            github_info := remoteUrl.bind parse_github_url
            commits := commits
            stats := RepoStats.from_commits commits }

/-! Derived views used only to state properties (not part of the source). -/

/-- The file paths of a tree. -/
def treePaths (t : Tree) : List String :=
  t.map (·.1)

/-- Total number of lines in a tree. -/
def treeTotalLines (t : Tree) : Nat :=
  (t.map fun e => e.2.length).sum

/-- Matches of all four reference patterns over a message, pooled in pattern
order (the spec's "matches from all patterns are pooled"). -/
def pooledMatches (message : String) : List Nat :=
  prPatterns.flatMap fun lit => scanPat lit message.data

/-! ## Theorems -/

mutual

theorem Dir.recMem {P : Dir → Prop}
    (h : ∀ n r w cs, (∀ c ∈ cs, P c) → P (Dir.node n r w cs)) :
    ∀ d, P d
  | .node n r w cs => h n r w cs (Dir.recMemList h cs)

theorem Dir.recMemList {P : Dir → Prop}
    (h : ∀ n r w cs, (∀ c ∈ cs, P c) → P (Dir.node n r w cs)) :
    ∀ cs : List Dir, ∀ c ∈ cs, P c
  | d :: ds => by
    intro c hc
    rcases List.mem_cons.mp hc with rfl | hc
    · exact Dir.recMem h c
    · exact Dir.recMemList h ds c hc
  | [] => by
    intro c hc
    exact absurd hc (List.not_mem_nil c)

end

theorem mem_scanRecList {ex : List String} {md : Option Nat}
    {path : List String} {depth : Nat} {cs : List Dir} {q : List String} :
    q ∈ scanRecList ex md path depth cs ↔
      ∃ c ∈ cs, shouldExclude ex c.name = false ∧ hiddenSkip c.name = false ∧
        q ∈ scanRec ex md (path ++ [c.name]) (depth + 1) c := by
  induction cs with
  | nil => simp [scanRecList]
  | cons c cs ih =>
    rw [scanRecList]
    simp only [List.mem_append, ih, List.mem_cons]
    constructor
    · rintro (hq | ⟨c', hc', hprop⟩)
      · by_cases h1 : shouldExclude ex c.name = true
        · rw [if_pos h1] at hq
          cases hq
        · by_cases h2 : hiddenSkip c.name = true
          · rw [if_neg h1, if_pos h2] at hq
            cases hq
          · rw [if_neg h1, if_neg h2] at hq
            exact ⟨c, Or.inl rfl, Bool.not_eq_true _ |>.mp h1,
              Bool.not_eq_true _ |>.mp h2, hq⟩
      · exact ⟨c', Or.inr hc', hprop⟩
    · rintro ⟨c', (rfl | hc'), hex, hhid, hq⟩
      · left
        rw [if_neg (by simp [hex]), if_neg (by simp [hhid])]
        exact hq
      · exact Or.inr ⟨c', hc', hex, hhid, hq⟩

theorem mem_scanRec {ex : List String} {md : Option Nat} {path : List String}
    {depth : Nat} {d : Dir} {q : List String} :
    q ∈ scanRec ex md path depth d ↔
      atMaxDepth md depth = false ∧
        ((d.isRepo = true ∧ q = path) ∨
          (d.readable = true ∧
            q ∈ scanRecList ex md path depth d.children)) := by
  obtain ⟨n, r, w, cs⟩ := d
  rw [scanRec]
  by_cases hmax : atMaxDepth md depth = true
  · simp [hmax]
  · have hmax' : atMaxDepth md depth = false := Bool.not_eq_true _ |>.mp hmax
    rw [if_neg hmax]
    cases r <;> cases w <;>
      simp [hmax', Dir.isRepo, Dir.readable, Dir.children, List.mem_append]

theorem scanRec_at_max {ex : List String} {m : Nat} {path : List String}
    {depth : Nat} {d : Dir} (h : m ≤ depth) :
    scanRec ex (some m) path depth d = [] := by
  obtain ⟨n, r, w, cs⟩ := d
  rw [scanRec, if_pos (by simp [atMaxDepth, h])]

theorem scanRec_extends {ex : List String} {md : Option Nat} (d : Dir) :
    ∀ path depth q, q ∈ scanRec ex md path depth d →
      ∃ extra : List String, q = path ++ extra ∧
        (∀ s ∈ extra, shouldExclude ex s = false) ∧
        ∀ m, md = some m → depth + extra.length < m := by
  induction d using Dir.recMem with
  | _ n r w cs ih =>
    intro path depth q hq
    rw [mem_scanRec] at hq
    obtain ⟨hmax, hq⟩ := hq
    rcases hq with ⟨hr, rfl⟩ | ⟨hw, hq⟩
    · refine ⟨[], by simp, by simp, ?_⟩
      intro m hm
      subst hm
      simp only [atMaxDepth, decide_eq_false_iff_not, Nat.not_le] at hmax
      simpa using hmax
    · rw [mem_scanRecList] at hq
      obtain ⟨c, hc, hex, hhid, hq⟩ := hq
      obtain ⟨extra, rfl, hexs, hdep⟩ := ih c hc (path ++ [c.name]) (depth + 1) q hq
      refine ⟨c.name :: extra, by simp, ?_, ?_⟩
      · intro s hs
        rcases List.mem_cons.mp hs with rfl | hs
        · exact hex
        · exact hexs s hs
      · intro m hm
        have := hdep m hm
        simp only [List.length_cons]
        omega

theorem containsSubCL_nil_pat (s : List Char) : containsSubCL s [] = true := by
  cases s <;> simp [containsSubCL, isPrefixCL]

theorem mem_foldl_collectNum {ns : List Nat} :
    ∀ {acc : List Nat} {m : Nat},
      m ∈ ns.foldl collectNum acc ↔ m ∈ acc ∨ (m ∈ ns ∧ m < 2 ^ 32) := by
  induction ns with
  | nil => simp
  | cons n ns ih =>
    intro acc m
    simp only [List.foldl_cons, ih, List.mem_cons]
    by_cases hc : (decide (n < 2 ^ 32) && !acc.contains n) = true
    · have h1 : n < 2 ^ 32 := by
        rcases (Bool.and_eq_true ..).mp hc with ⟨ha, _⟩
        exact of_decide_eq_true ha
      rw [collectNum, if_pos hc]
      simp only [List.mem_append, List.mem_singleton]
      constructor
      · rintro ((hm | hm) | ⟨hm, hw⟩)
        · exact Or.inl hm
        · exact Or.inr ⟨Or.inl hm, hm ▸ h1⟩
        · exact Or.inr ⟨Or.inr hm, hw⟩
      · rintro (hm | ⟨hm | hm, hw⟩)
        · exact Or.inl (Or.inl hm)
        · exact Or.inl (Or.inr hm)
        · exact Or.inr ⟨hm, hw⟩
    · have hc' : ¬ n < 2 ^ 32 ∨ n ∈ acc := by
        by_contra hcon
        push_neg at hcon
        refine hc ?_
        simp only [Bool.and_eq_true, decide_eq_true_eq, Bool.not_eq_true']
        refine ⟨hcon.1, ?_⟩
        simpa using hcon.2
      rw [collectNum, if_neg hc]
      constructor
      · rintro (hm | ⟨hm, hw⟩)
        · exact Or.inl hm
        · exact Or.inr ⟨Or.inr hm, hw⟩
      · rintro (hm | ⟨hm | hm, hw⟩)
        · exact Or.inl hm
        · rcases hc' with h | h
          · exact absurd (hm ▸ hw) h
          · exact Or.inl (hm ▸ h)
        · exact Or.inr ⟨hm, hw⟩

theorem nodup_foldl_collectNum {ns : List Nat} :
    ∀ {acc : List Nat}, acc.Nodup → (ns.foldl collectNum acc).Nodup := by
  induction ns with
  | nil => intro acc h; simpa using h
  | cons n ns ih =>
    intro acc h
    simp only [List.foldl_cons]
    apply ih
    rw [collectNum]
    split
    · rename_i hcond
      have hn : n ∉ acc := by
        rcases (Bool.and_eq_true ..).mp hcond with ⟨_, h2⟩
        simpa using h2
      simp [List.nodup_append, h, hn]
    · exact h

theorem mem_pooled_fold {pats : List (List Char)} {s : List Char} :
    ∀ {acc : List Nat} {m : Nat},
      m ∈ pats.foldl (fun acc lit => (scanPat lit s).foldl collectNum acc) acc
        ↔ m ∈ acc ∨ ((∃ lit ∈ pats, m ∈ scanPat lit s) ∧ m < 2 ^ 32) := by
  induction pats with
  | nil => simp
  | cons p ps ih =>
    intro acc m
    simp only [List.foldl_cons, ih, mem_foldl_collectNum, List.mem_cons]
    constructor
    · rintro ((hm | ⟨hm, hw⟩) | ⟨⟨lit, hl, hm⟩, hw⟩)
      · exact Or.inl hm
      · exact Or.inr ⟨⟨p, Or.inl rfl, hm⟩, hw⟩
      · exact Or.inr ⟨⟨lit, Or.inr hl, hm⟩, hw⟩
    · rintro (hm | ⟨⟨lit, (rfl | hl), hm⟩, hw⟩)
      · exact Or.inl (Or.inl hm)
      · exact Or.inl (Or.inr ⟨hm, hw⟩)
      · exact Or.inr ⟨⟨lit, hl, hm⟩, hw⟩

theorem nodup_pooled_fold {pats : List (List Char)} {s : List Char} :
    ∀ {acc : List Nat}, acc.Nodup →
      (pats.foldl (fun acc lit =>
        (scanPat lit s).foldl collectNum acc) acc).Nodup := by
  induction pats with
  | nil => intro acc h; simpa using h
  | cons p ps ih => intro acc h; exact ih (nodup_foldl_collectNum h)

/-- C3: reference extraction pools the matches of the four patterns,
deduplicates them and returns them in strictly ascending numeric order
(every extracted number is a pooled match that fits in a `u32`, and
conversely); in particular the message "Fix #123 and close #123" yields
[123] and "Fixes GH-456, PR#789" yields [456, 789]. -/
theorem references_pooled_dedup_sorted :
    (∀ msg : String, List.Sorted (· < ·) (extract_pr_numbers msg)) ∧
    (∀ (msg : String) (n : Nat),
        n ∈ extract_pr_numbers msg ↔ n ∈ pooledMatches msg ∧ n < 2 ^ 32) ∧
    extract_pr_numbers "Fix #123 and close #123" = [123] ∧
    extract_pr_numbers "Fixes GH-456, PR#789" = [456, 789] := by
  have hperm : ∀ msg : String, (extract_pr_numbers msg).Perm
      (prPatterns.foldl
        (fun acc lit => (scanPat lit msg.data).foldl collectNum acc) []) :=
    fun msg => List.perm_insertionSort _ _
  refine ⟨?_, ?_, by decide, by decide⟩
  · intro msg
    have hsorted : List.Sorted (· ≤ ·) (extract_pr_numbers msg) :=
      List.sorted_insertionSort _ _
    have hnodup : (extract_pr_numbers msg).Nodup :=
      ((hperm msg).nodup_iff).mpr (nodup_pooled_fold List.nodup_nil)
    exact (hsorted.and hnodup).imp fun h => lt_of_le_of_ne h.1 h.2
  · intro msg n
    rw [(hperm msg).mem_iff, mem_pooled_fold]
    simp [pooledMatches, List.mem_flatMap]

/-- Diffing any tree against the empty old side reports every file, all of
its lines as insertions and no deletions. -/
theorem diffTreeToTree_none (t : Tree) :
    diffTreeToTree none t = (treePaths t, treeTotalLines t, 0) := by
  simp only [diffTreeToTree, Option.getD_none, treeLookup, List.find?_nil,
    treePaths, treeTotalLines, fileDiff]
  simp [List.map_const']

/-- C9: for every commit with at least one parent, diff statistics are
computed between the first parent's tree and the commit's tree, and the
later parents of a merge commit are ignored (replacing them changes
nothing); for every commit with no parent, the diff is taken against an
empty tree, so every file of its content counts as insertions and the
deletion count is zero. -/
theorem diff_uses_first_parent_or_empty_tree :
    (∀ (g : GitCommit) (p : Tree) (rest rest2 : List Tree),
        g.parentTrees = p :: rest →
        get_diff_stats g =
          ((diffTreeToTree (some p) g.tree).1,
            (diffTreeToTree (some p) g.tree).2.1 % 2 ^ 32,
            (diffTreeToTree (some p) g.tree).2.2 % 2 ^ 32) ∧
        get_diff_stats { g with parentTrees := p :: rest2 } =
          get_diff_stats g) ∧
    (∀ g : GitCommit, g.parentTrees = [] →
        get_diff_stats g =
          (treePaths g.tree, treeTotalLines g.tree % 2 ^ 32, 0)) := by
  constructor
  · intro g p rest rest2 hp
    constructor
    · simp [get_diff_stats, hp]
    · simp [get_diff_stats, hp]
  · intro g hp
    simp [get_diff_stats, hp, diffTreeToTree_none]

theorem fromCommits_fold_spec (cs : List Commit) :
    (cs.foldl fromCommitsStep (RepoStats.default, ∅)).1.total_commits
        = cs.length % 2 ^ 32 ∧
    (cs.foldl fromCommitsStep (RepoStats.default, ∅)).1.total_files_changed
        = (cs.map fun c => c.files_changed.length).sum % 2 ^ 32 ∧
    (cs.foldl fromCommitsStep (RepoStats.default, ∅)).1.total_insertions
        = (cs.map Commit.insertions).sum % 2 ^ 32 ∧
    (cs.foldl fromCommitsStep (RepoStats.default, ∅)).1.total_deletions
        = (cs.map Commit.deletions).sum % 2 ^ 32 ∧
    (cs.foldl fromCommitsStep (RepoStats.default, ∅)).2
        = (cs.flatMap Commit.pr_numbers).toFinset ∧
    ∀ d, (cs.foldl fromCommitsStep (RepoStats.default, ∅)).1.commit_frequency d
        = (cs.filter fun c => dateStr c.timestamp = d).length % 2 ^ 32 := by
  induction cs using List.reverseRecOn with
  | nil => simp [RepoStats.default]
  | append_singleton cs c ih =>
    obtain ⟨h1, h2, h3, h4, h5, h6⟩ := ih
    simp only [List.foldl_append, List.foldl_cons, List.foldl_nil]
    rw [fromCommitsStep]
    refine ⟨?_, ?_, ?_, ?_, ?_, ?_⟩
    · simp only [u32add, h1, List.length_append, List.length_cons,
        List.length_nil, Nat.mod_add_mod]
    · simp only [u32add, h2, List.map_append, List.sum_append, List.map_cons,
        List.map_nil, List.sum_cons, List.sum_nil, Nat.mod_add_mod]
      omega
    · simp only [u32add, h3, List.map_append, List.sum_append, List.map_cons,
        List.map_nil, List.sum_cons, List.sum_nil, Nat.mod_add_mod]
      omega
    · simp only [u32add, h4, List.map_append, List.sum_append, List.map_cons,
        List.map_nil, List.sum_cons, List.sum_nil, Nat.mod_add_mod]
      omega
    · simp only [h5, List.flatMap_append, List.toFinset_append]
      simp [List.flatMap]
    · intro d
      simp only [List.filter_append, List.length_append]
      by_cases hd : d = dateStr c.timestamp
      · simp only [if_pos hd, u32add, h6, Nat.mod_add_mod]
        simp [List.filter, hd.symm]
      · simp only [if_neg hd, h6]
        have : dateStr c.timestamp ≠ d := fun h => hd h.symm
        simp [List.filter, this]

/-- C7: aggregation is a pure deterministic fold over the commit list:
total commits is the list length, total files changed is the sum of the
per-commit file-list lengths (no cross-commit deduplication), insertion and
deletion totals are sums, the distinct-PR count is the size of the union of
all commits' referenced numbers, the frequency table maps each calendar day
to its occurrence count, and re-running aggregation on the same list yields
an identical result (the hypotheses say the `u32` counters do not
overflow). -/
theorem stats_pure_fold (cs : List Commit)
    (hlen : cs.length < 2 ^ 32)
    (hfiles : (cs.map fun c => c.files_changed.length).sum < 2 ^ 32)
    (hins : (cs.map Commit.insertions).sum < 2 ^ 32)
    (hdel : (cs.map Commit.deletions).sum < 2 ^ 32)
    (hpr : (cs.flatMap Commit.pr_numbers).toFinset.card < 2 ^ 32) :
    (RepoStats.from_commits cs).total_commits = cs.length ∧
    (RepoStats.from_commits cs).total_files_changed
      = (cs.map fun c => c.files_changed.length).sum ∧
    (RepoStats.from_commits cs).total_insertions
      = (cs.map Commit.insertions).sum ∧
    (RepoStats.from_commits cs).total_deletions
      = (cs.map Commit.deletions).sum ∧
    (RepoStats.from_commits cs).pr_count
      = (cs.flatMap Commit.pr_numbers).toFinset.card ∧
    (∀ d, (RepoStats.from_commits cs).commit_frequency d
      = (cs.filter fun c => dateStr c.timestamp = d).length) ∧
    RepoStats.from_commits cs = RepoStats.from_commits cs := by
  obtain ⟨h1, h2, h3, h4, h5, h6⟩ := fromCommits_fold_spec cs
  refine ⟨?_, ?_, ?_, ?_, ?_, ?_, rfl⟩
  · rw [RepoStats.from_commits]
    simpa [h1] using Nat.mod_eq_of_lt hlen
  · rw [RepoStats.from_commits]
    simpa [h2] using Nat.mod_eq_of_lt hfiles
  · rw [RepoStats.from_commits]
    simpa [h3] using Nat.mod_eq_of_lt hins
  · rw [RepoStats.from_commits]
    simpa [h4] using Nat.mod_eq_of_lt hdel
  · rw [RepoStats.from_commits]
    simpa [h5] using Nat.mod_eq_of_lt hpr
  · intro d
    rw [RepoStats.from_commits]
    have hfil : (cs.filter fun c => dateStr c.timestamp = d).length < 2 ^ 32 :=
      lt_of_le_of_lt (List.length_filter_le _ _) hlen
    simpa [h6 d] using Nat.mod_eq_of_lt hfil

/-- Concrete single-commit input used to instantiate `stats_pure_fold`. -/
def statsWitnessCommit : Commit :=
  { hash := "abc123", short_hash := "abc123", author := ⟨"Test", "t@e.com"⟩,
    timestamp := 0, message := "Test commit", summary := "Test commit",
    body := none, files_changed := ["f1.rs", "f2.rs"], insertions := 10,
    deletions := 5, pr_numbers := [123] }

theorem stats_pure_fold_witness :
    [statsWitnessCommit].length < 2 ^ 32 ∧
    (RepoStats.from_commits [statsWitnessCommit]).total_commits = 1 ∧
    (RepoStats.from_commits [statsWitnessCommit]).total_files_changed = 2 ∧
    (RepoStats.from_commits [statsWitnessCommit]).pr_count = 1 := by
  have h := stats_pure_fold [statsWitnessCommit] (by decide) (by decide)
    (by decide) (by decide) (by decide)
  exact ⟨by decide, by simpa using h.1, by simpa [statsWitnessCommit] using h.2.1,
    by simpa using h.2.2.2.2.1⟩

/-- C4: URL parsing recognizes the HTTPS, SSH-style and git:// GitHub
transport forms, returning the owner/repository pair with any trailing .git
stripped, and yields no identifier (rather than an error) on an unrecognized
host: the three GitHub forms of the claim parse to owner "owner" and
repository "repo", and the GitLab URL parses to none. -/
theorem parse_github_url_forms :
    parse_github_url "https://github.com/owner/repo.git" =
      some ⟨"owner", "repo"⟩ ∧
    parse_github_url "git@github.com:owner/repo.git" =
      some ⟨"owner", "repo"⟩ ∧
    parse_github_url "git://github.com/owner/repo.git" =
      some ⟨"owner", "repo"⟩ ∧
    parse_github_url "https://gitlab.com/owner/repo" = none := by
  decide

/-- C5: with an author filter, a commit of the walk is in the walker's output
iff it passes the time window and its author email contains the filter as a
substring case-insensitively; the filter "Test@Example.com" matches the
author email "test@example.com", and "wrong@example.com" does not. -/
theorem author_filter_ci_substring :
    (∀ (f : String) (ts : Timespan) (walk : List GitCommit) (c : Commit),
        c ∈ parse_commits (some f) ts walk ↔
          ∃ g ∈ walk, mkCommit g = c ∧ ts.contains g.time = true ∧
            emailMatches f g.authorEmail = true) ∧
    emailMatches "Test@Example.com" "test@example.com" = true ∧
    emailMatches "wrong@example.com" "test@example.com" = false := by
  refine ⟨?_, by decide, by decide⟩
  intro f ts walk c
  simp only [parse_commits, List.mem_map, List.mem_filter, commitIncluded,
    Bool.and_eq_true]
  constructor
  · rintro ⟨g, ⟨hg, hin, hmatch⟩, rfl⟩
    exact ⟨g, hg, rfl, hin, hmatch⟩
  · rintro ⟨g, hg, rfl, hin, hmatch⟩
    exact ⟨g, ⟨hg, hin, hmatch⟩, rfl⟩

/-- C6: every commit in a filtered walker result has
start ≤ timestamp ≤ end; a walked commit whose timestamp equals start or end
is included (boundaries inclusive, here with no author filter so only the
window decides), and one strictly before start or strictly after end is
never included. -/
theorem window_boundaries_inclusive :
    (∀ (f : Option String) (ts : Timespan) (walk : List GitCommit)
        (c : Commit), c ∈ parse_commits f ts walk →
        ts.start ≤ c.timestamp ∧ c.timestamp ≤ ts.end_) ∧
    (∀ (ts : Timespan) (walk : List GitCommit) (g : GitCommit),
        g ∈ walk → ts.start ≤ ts.end_ →
        (g.time = ts.start ∨ g.time = ts.end_) →
        mkCommit g ∈ parse_commits none ts walk) ∧
    (∀ (f : Option String) (ts : Timespan) (walk : List GitCommit)
        (g : GitCommit), (g.time < ts.start ∨ ts.end_ < g.time) →
        mkCommit g ∉ parse_commits f ts walk) := by
  refine ⟨?_, ?_, ?_⟩
  · intro f ts walk c hc
    simp only [parse_commits, List.mem_map, List.mem_filter, commitIncluded,
      Bool.and_eq_true, Timespan.contains, decide_eq_true_eq] at hc
    obtain ⟨g, ⟨_, ⟨h1, h2⟩, _⟩, rfl⟩ := hc
    exact ⟨h1, h2⟩
  · intro ts walk g hg hse hbound
    have hinc : commitIncluded none ts g = true := by
      simp only [commitIncluded, Timespan.contains]
      rcases hbound with h | h <;> simp [h, hse]
    exact List.mem_map_of_mem mkCommit (List.mem_filter.mpr ⟨hg, hinc⟩)
  · intro f ts walk g hout hc
    simp only [parse_commits, List.mem_map, List.mem_filter, commitIncluded,
      Bool.and_eq_true, Timespan.contains, decide_eq_true_eq] at hc
    obtain ⟨g', ⟨_, ⟨h1, h2⟩, _⟩, heq⟩ := hc
    have ht : g'.time = g.time := congrArg Commit.timestamp heq
    rw [ht] at h1 h2
    rcases hout with h | h <;> omega

/-- C8: on a valid repository whose filtered commit list is empty, analysis
returns the NoCommitsFound error carrying the filter author (or "any"); a
path that does not open as a repository gives a Git error instead; the two
are distinct; and in the NoCommitsFound case no repository record is
produced. -/
theorem no_commits_found_distinct :
    (∀ (walk : List GitCommit) (remote : Option String) (path : List String)
        (f : Option String) (ts : Timespan),
        parse_commits f ts walk = [] →
        analyze_repository (some walk) remote path f ts =
          .error (.NoCommitsFound (f.getD "any"))) ∧
    (∀ (remote : Option String) (path : List String) (f : Option String)
        (ts : Timespan),
        analyze_repository none remote path f ts =
          .error (.Git "failed to open repository")) ∧
    (∀ a m, DevRecapError.NoCommitsFound a ≠ DevRecapError.Git m) ∧
    (∀ (walk : List GitCommit) (remote : Option String) (path : List String)
        (f : Option String) (ts : Timespan) (r : Repository),
        parse_commits f ts walk = [] →
        analyze_repository (some walk) remote path f ts ≠ .ok r) := by
  refine ⟨?_, ?_, ?_, ?_⟩
  · intro walk remote path f ts hempty
    simp [analyze_repository, hempty]
  · intro remote path f ts
    simp [analyze_repository]
  · intro a m h
    exact DevRecapError.noConfusion h
  · intro walk remote path f ts r hempty
    simp [analyze_repository, hempty]

/-- C1 counterexample: with maximum depth 1, the directory "a" at depth 1 is
a valid repository root, yet scan does not return it — the depth check
`depth >= max_depth` returns before the repository test, so a directory at
exactly the maximum depth is not checked, contrary to the claim. -/
theorem depth_check_counterexample :
    ["a"] ∉ scan [] (some 1)
      (Dir.node "r" false true [Dir.node "a" true true []]) := by
  decide

/-- C1 as amended: every path scan returns has depth strictly less than the
configured maximum, and at any depth at or beyond the maximum the recursion
returns nothing at all — no descent, and no repository test either (the
depth check precedes the test, so the directory at the maximum depth is not
checked). -/
theorem depth_strictly_below_max :
    (∀ (ex : List String) (m : Nat) (root : Dir) (q : List String),
        q ∈ scan ex (some m) root → q.length < m) ∧
    (∀ (ex : List String) (m : Nat) (path : List String) (depth : Nat)
        (d : Dir), m ≤ depth → scanRec ex (some m) path depth d = []) := by
  constructor
  · intro ex m root q hq
    obtain ⟨extra, rfl, _, hdep⟩ := scanRec_extends root [] 0 q hq
    simpa using hdep m rfl
  · intro ex m path depth d h
    exact scanRec_at_max h

/-- C2 counterexample: with exclusion pattern "node_modules", the directory
"node_modules" is itself a valid repository root, yet scan does not return
it — the exclusion test runs in the parent's loop before the recursive call,
so an excluded directory is never repository-tested, contrary to the
claim. -/
theorem excluded_repo_counterexample :
    ["node_modules"] ∉ scan ["node_modules"] none
      (Dir.node "r" false true [Dir.node "node_modules" true true []]) := by
  decide

/-- C2 as amended: a non-root directory whose final segment equals or
contains an exclusion pattern is skipped entirely — neither descended into
nor repository-tested nor returned, so no returned path has an excluded
segment anywhere along it; the scan root itself is never tested against the
exclusion patterns (it is repository-tested and returned regardless of
them). -/
theorem exclusion_prunes_whole_subtree :
    (∀ (ex : List String) (md : Option Nat) (root : Dir) (q : List String),
        q ∈ scan ex md root → ∀ s ∈ q, shouldExclude ex s = false) ∧
    (∀ (ex : List String) (md : Option Nat) (root : Dir),
        atMaxDepth md 0 = false → root.isRepo = true →
        [] ∈ scan ex md root) := by
  constructor
  · intro ex md root q hq s hs
    obtain ⟨extra, rfl, hexs, _⟩ := scanRec_extends root [] 0 q hq
    exact hexs s (by simpa using hs)
  · intro ex md root hmax hrepo
    rw [scan, mem_scanRec]
    exact ⟨hmax, Or.inl ⟨hrepo, rfl⟩⟩

/-- C10: when the exclusion pattern list contains the empty string, every
directory name is excluded (every string contains the empty substring), so
scan descends into no subdirectory at all and can return at most the scan
root itself (the empty path). -/
theorem empty_pattern_blocks_descent :
    ∀ (ex : List String) (md : Option Nat) (root : Dir) (q : List String),
      "" ∈ ex → q ∈ scan ex md root → q = [] := by
  intro ex md root q hex hq
  obtain ⟨extra, hq', hexs, _⟩ := scanRec_extends root [] 0 q hq
  rw [List.nil_append] at hq'
  subst hq'
  cases q with
  | nil => rfl
  | cons s rest =>
    have hfalse := hexs s (List.mem_cons_self s rest)
    have htrue : shouldExclude ex s = true := by
      simp only [shouldExclude, List.any_eq_true]
      refine ⟨"", hex, ?_⟩
      simp [stringContains, containsSubCL_nil_pat]
    rw [htrue] at hfalse
    cases hfalse

/-- Closed instance for `empty_pattern_blocks_descent`: with patterns [""]
on a root that is a repository with one repository child, the root path is
returned by scan, satisfies both hypotheses concretely, and is indeed the
empty path. -/
theorem empty_pattern_blocks_descent_witness :
    "" ∈ [""] ∧
    [] ∈ scan [""] none (Dir.node "r" true true [Dir.node "a" true true []]) ∧
    ([] : List String) = [] :=
  ⟨by decide, by decide,
    empty_pattern_blocks_descent [""] none
      (Dir.node "r" true true [Dir.node "a" true true []]) [] (by decide)
      (by decide)⟩

end DevRecap
